import Mathlib

/-!
Shallow embedding of the music streaming client (`src/client.py`):
the playlist state machine of `PlayerThread`, and the chunked download
protocol of `ClientThread.download`.  Playlist state is modelled as a
structure mirroring the mutable fields of `PlayerThread`; each command
handler becomes a pure state-transformer; the local song store is
modelled as an association list from filenames to byte contents.
-/

namespace MusicClient

/-! ## Local file store and the chunked download protocol -/

/-- A chunk of bytes received from the server (`socket.recv()`). -/
abbrev Chunk := List Nat

/-- The local songs directory: filenames paired with file contents. -/
abbrev Files := List (String × Chunk)

/-- `open(..., 'ab')` followed by `write(data)`: append `data` to the
file named `f`, creating it when absent. -/
def writeAppend : Files → String → Chunk → Files
  | [], f, data => [(f, data)]
  | (g, c) :: rest, f, data =>
      if g = f then (g, c ++ data) :: rest
      else (g, c) :: writeAppend rest f data

/-- `os.path.exists(f"{SONGS_DIR}{filename}")`. -/
def fileExists (fs : Files) (f : String) : Bool :=
  (fs.lookup f).isSome

/-- One wire-level event of the download protocol, as seen from the
client: a download request, a received chunk, or the short `'ok'`
acknowledgment string. -/
inductive Event
  | req (f : String)
  | recv (c : Chunk)
  | ack
deriving DecidableEq, Repr

/-- The inner `while data := self.socket.recv():` loop of
`ClientThread.download`: receive chunks, writing and acknowledging each
non-empty one, until an empty chunk arrives.  `stream` is the remaining
sequence of chunks the server will send; reading past its end yields the
empty end-of-stream chunk.  Returns the file store and the trace of
wire events. -/
def down_loop (fs : Files) (f : String) : List Chunk → Files × List Event
  | [] => (fs, [Event.recv []])
  | c :: cs =>
      if c = [] then (fs, [Event.recv c])
      else
        let r := down_loop (writeAppend fs f c) f cs
        (r.1, Event.recv c :: Event.ack :: r.2)

/-- One iteration of the `for filename in args` loop of
`ClientThread.download`: skip the download when the file already exists
locally; otherwise request it, fail if the first chunk is empty, and
otherwise write the first chunk and run the receive loop.  `remote f`
is the sequence of chunks the server sends for `f` (terminated by an
implicit empty end-of-stream chunk).  Returns the file store, whether
the track was accepted into `new_args`, and the wire trace. -/
def download_one (remote : String → List Chunk) (fs : Files) (filename : String) :
    Files × Bool × List Event :=
  if fileExists fs filename then (fs, true, [])
  else
    let stream := remote filename
    let data := stream.headD []
    if data = [] then (fs, false, [Event.req filename, Event.recv data])
    else
      let r := down_loop (writeAppend fs filename data) filename (stream.drop 1)
      (r.1, true, Event.req filename :: Event.recv data :: Event.ack :: r.2)

/-- One step of the outer loop of `ClientThread.download`: thread the
file store through `download_one` and extend `new_args` when the track
was accepted. -/
def download_step (remote : String → List Chunk) (acc : Files × List String)
    (filename : String) : Files × List String :=
  let r := download_one remote acc.1 filename
  (r.1, if r.2.1 then acc.2 ++ [filename] else acc.2)

/-- `ClientThread.download`: process every requested filename in order,
accumulating the accepted list `new_args`. -/
def download (remote : String → List Chunk) (fs : Files) (args : List String) :
    Files × List String :=
  args.foldl (download_step remote) (fs, [])

/-! ## Playlist state of `PlayerThread` -/

/-- The mutable fields of `PlayerThread`, as initialised in
`PlayerThread.__init__`.  `index` is an integer as in Python;
`song_name`/`current_song` are `none` when no song is loaded;
`thread_running` tracks whether the `play_all` worker is alive. -/
structure PState where
  playlist : List String
  temp_playlist : List String
  playlist_info : Bool
  playlist_end : Bool
  thread_running : Bool
  song_name : Option String
  current_song : Option String
  index : Int
  update_index : Bool
  stopped : Bool
  paused : Bool
deriving DecidableEq, Repr

@[simp]
theorem ite_playlist (c : Prop) [Decidable c] (a b : PState) :
    (if c then a else b).playlist = if c then a.playlist else b.playlist := by
  split <;> rfl

@[simp]
theorem ite_temp_playlist (c : Prop) [Decidable c] (a b : PState) :
    (if c then a else b).temp_playlist = if c then a.temp_playlist else b.temp_playlist := by
  split <;> rfl

@[simp]
theorem ite_playlist_info (c : Prop) [Decidable c] (a b : PState) :
    (if c then a else b).playlist_info = if c then a.playlist_info else b.playlist_info := by
  split <;> rfl

@[simp]
theorem ite_playlist_end (c : Prop) [Decidable c] (a b : PState) :
    (if c then a else b).playlist_end = if c then a.playlist_end else b.playlist_end := by
  split <;> rfl

@[simp]
theorem ite_thread_running (c : Prop) [Decidable c] (a b : PState) :
    (if c then a else b).thread_running = if c then a.thread_running else b.thread_running := by
  split <;> rfl

@[simp]
theorem ite_song_name (c : Prop) [Decidable c] (a b : PState) :
    (if c then a else b).song_name = if c then a.song_name else b.song_name := by
  split <;> rfl

@[simp]
theorem ite_current_song (c : Prop) [Decidable c] (a b : PState) :
    (if c then a else b).current_song = if c then a.current_song else b.current_song := by
  split <;> rfl

@[simp]
theorem ite_index (c : Prop) [Decidable c] (a b : PState) :
    (if c then a else b).index = if c then a.index else b.index := by
  split <;> rfl

@[simp]
theorem ite_update_index (c : Prop) [Decidable c] (a b : PState) :
    (if c then a else b).update_index = if c then a.update_index else b.update_index := by
  split <;> rfl

@[simp]
theorem ite_stopped (c : Prop) [Decidable c] (a b : PState) :
    (if c then a else b).stopped = if c then a.stopped else b.stopped := by
  split <;> rfl

@[simp]
theorem ite_paused (c : Prop) [Decidable c] (a b : PState) :
    (if c then a else b).paused = if c then a.paused else b.paused := by
  split <;> rfl

/-- The state built by `PlayerThread.__init__`. -/
def initState : PState :=
  { playlist := []
    temp_playlist := []
    playlist_info := false
    playlist_end := false
    thread_running := false
    song_name := none
    current_song := none
    index := 0
    update_index := true
    stopped := false
    paused := false }

/-- The sequence the player is iterating: `temp_playlist` when
non-empty (`if self.temp_playlist:`), else `playlist`. -/
def activeList (s : PState) : List String :=
  if s.temp_playlist ≠ [] then s.temp_playlist else s.playlist

/-- `PlayerThread.add`: append every filename to the playlist. -/
def add (args : List String) (s : PState) : PState :=
  { s with playlist := s.playlist ++ args }

/-- `PlayerThread.valid_index`: whether `index + amount` is a valid
position of the current playlist. -/
def valid_index (amount : Int) (s : PState) : Bool :=
  if s.temp_playlist ≠ [] then
    decide (0 ≤ s.index + amount ∧ s.index + amount < (s.temp_playlist.length : Int))
  else
    decide (0 ≤ s.index + amount ∧ s.index + amount < (s.playlist.length : Int))

/-- Python's `list.index`: position of the first occurrence, `none`
when absent (`ValueError`). -/
def pyIndex (l : List String) (x : String) : Option Nat :=
  match l with
  | [] => none
  | y :: ys => if y = x then some 0 else (pyIndex ys x).map (· + 1)

/-- `PlayerThread.fix_index`: adjust `index` after a removal at
position `rm_index`; clear `update_index` when the removed song is the
one currently playing. -/
def fix_index (rm_index : Nat) (s : PState) : PState :=
  if s.index > (rm_index : Int) then { s with index := s.index - 1 }
  else if s.index = (rm_index : Int) then { s with update_index := false }
  else s

/-- `PlayerThread.remove_song`: pop the first occurrence of `filename`
from the (main) playlist and fix the index; a `ValueError` from
`list.index` leaves the state unchanged. -/
def remove_song (filename : String) (s : PState) : PState :=
  match pyIndex s.playlist filename with
  | some rm_index => fix_index rm_index { s with playlist := s.playlist.eraseIdx rm_index }
  | none => s

/-- `PlayerThread.remove`: remove every song in `args` (a no-op warning
when `args` is falsy). -/
def remove (args : List String) (s : PState) : PState :=
  if args = [] then s
  else args.foldl (fun s filename => remove_song filename s) s

/-- Iterating a Python string yields its characters; modelled as the
list of one-character strings.  This is what `self.remove(filename)`
receives when `filename` is a `str` rather than a list. -/
def strChars (s : String) : List String :=
  s.toList.map fun c => String.mk [c]

/-- The three per-track failures `PlayerThread.play_song` catches. -/
inductive PlayFailure
  | fileNotFound
  | waveError
  | eofError

/-- The `except`/`finally` part of `PlayerThread.play_song`:
`FileNotFoundError` calls `remove_song(filename)`, while `wave.Error`
and `EOFError` call `remove(filename)` with the bare string, which
Python iterates character by character; `finally` clears the current
song. -/
def play_song_onError (e : PlayFailure) (filename : String) (s : PState) : PState :=
  let s1 :=
    match e with
    | PlayFailure.fileNotFound => remove_song filename s
    | PlayFailure.waveError => remove (strChars filename) s
    | PlayFailure.eofError => remove (strChars filename) s
  { s1 with song_name := none, current_song := none }

/-- `PlayerThread.resume_song`. -/
def resume_song (s : PState) : PState :=
  if s.paused then { s with paused := false } else s

/-- `PlayerThread.pause_song`. -/
def pause_song (s : PState) : PState :=
  if s.current_song = none then s
  else if s.paused then s
  else { s with paused := true }

/-- `PlayerThread.stop`: no-op without a current song; otherwise resume
a paused song, signal the worker to stop, halt audio output, and on a
user-initiated stop (`reset = true`) reset the index and the temp
playlist. -/
def stop (reset : Bool) (s : PState) : PState :=
  if s.current_song = none then s
  else
    let s1 := resume_song s
    let s2 := { s1 with stopped := true, paused := false }
    if reset then { s2 with index := 0, temp_playlist := [], playlist_info := false } else s2

/-- `PlayerThread.play`: re-entrancy guard on `thread_running`; a
non-empty `args` becomes the temp playlist filtered to locally present
files (`localExists`); abort when that filter is empty or when there is
nothing at all to play; otherwise mark the playlist as printed and
start the `play_all` worker. -/
def play (localExists : String → Bool) (args : List String) (s : PState) : PState :=
  if s.thread_running then s
  else
    let s1 := if args ≠ [] then { s with temp_playlist := args.filter localExists } else s
    if args ≠ [] ∧ s1.temp_playlist = [] then s1
    else if s1.playlist = [] ∧ s1.temp_playlist = [] then s1
    else
      let s2 := if ¬ s1.playlist_info then { s1 with playlist_info := true } else s1
      { s2 with stopped := false, playlist_end := false, thread_running := true }

/-- The observable effect of `self.playback_thread.join()` after a stop
signal: the worker's loop top sets `update_index = True`, the `finally`
of `play_song` clears the current song, and `play_all` clears
`thread_running` on exit. -/
def join_worker (s : PState) : PState :=
  { s with update_index := true, thread_running := false,
           song_name := none, current_song := none }

/-- The `stop` command as processed end-to-end: `PlayerThread.stop`
with `reset = true` followed by the worker's termination. -/
def stop_command (s : PState) : PState :=
  if s.current_song = none then s
  else join_worker (stop true s)

/-- `PlayerThread.switch_song`: no-op without a current song or when
the candidate index is invalid; otherwise stop without reset, join the
worker, move the index (guarded by `update_index`) and restart
playback via `play()` with no arguments. -/
def switch_song (amount : Int) (s : PState) : PState :=
  if s.current_song = none then s
  else if ¬ valid_index amount s then s
  else
    let s1 := join_worker (stop false s)
    let s2 := { s1 with index := s1.index + (if s1.update_index then amount else 0) }
    play (fun _ => false) [] s2

/-- One natural-end step of the `play_all` worker: the code after
`play_song` returns (lines 259-268) together with the next loop top
(lines 250-252).  When stopped, the loop breaks and the worker exits;
when `update_index` is set, advance the index or, past the last song,
reset everything and end the worker; when it was cleared by a removal,
leave the index alone for this cycle. -/
def natural_end_step (s : PState) : PState :=
  if ¬ s.thread_running then s
  else
    let s0 := { s with song_name := none, current_song := none }
    if s0.stopped then { s0 with update_index := true, thread_running := false }
    else if s0.update_index then
      if valid_index 1 s0 then { s0 with index := s0.index + 1, update_index := true }
      else { s0 with index := 0, temp_playlist := [], playlist_info := false,
                     playlist_end := true, thread_running := false }
    else { s0 with update_index := true }

/-- The start of one `play_song` call inside the worker: load the song
at the current index of the active playlist. -/
def song_start (s : PState) : PState :=
  if ¬ s.thread_running ∨ s.stopped ∨ s.playlist_end then s
  else { s with song_name := (activeList s).get? s.index.toNat,
                current_song := (activeList s).get? s.index.toNat }

/-- `main()`: the contents of the songs directory after
`pathlib.Path(SONGS_DIR).mkdir(exist_ok=True)`; creating an absent
directory yields an empty listing. -/
def mkdir_exist_ok : Option (List String) → List String
  | none => []
  | some files => files

/-- The player state `main()` hands to the consumer loop: a fresh
`PlayerThread` after `player.add(os.listdir(SONGS_DIR))`, before either
thread is started.  `songsDir` is the songs directory contents, `none`
when the directory does not yet exist. -/
def main_startup (songsDir : Option (List String)) : PState :=
  add (mkdir_exist_ok songsDir) initState

/-! ## Operations and the index invariant -/

/-- One observable operation on the playlist state: the queued commands
of `PlayerThread.run` (at per-track granularity for `rm`) together with
the worker-side transitions. -/
inductive Op
  | addCmd (args : List String)
  | playCmd (localExists : String → Bool) (args : List String)
  | stopCmd
  | pauseCmd
  | resumeCmd
  | switchCmd (amount : Int)
  | removeSongCmd (filename : String)
  | naturalEnd
  | songStart

/-- The state transformer of each operation. -/
def applyOp : Op → PState → PState
  | Op.addCmd args, s => add args s
  | Op.playCmd localExists args, s => play localExists args s
  | Op.stopCmd, s => stop_command s
  | Op.pauseCmd, s => pause_song s
  | Op.resumeCmd, s => resume_song s
  | Op.switchCmd amount, s => switch_song amount s
  | Op.removeSongCmd filename, s => remove_song filename s
  | Op.naturalEnd, s => natural_end_step s
  | Op.songStart, s => song_start s

/-- The cursor bound claimed by the spec: whenever the active sequence
is non-empty, `0 <= index < len(active sequence)`. -/
def IndexInBounds (s : PState) : Prop :=
  activeList s ≠ [] → 0 ≤ s.index ∧ s.index < ((activeList s).length : Int)

/-- Auxiliary facts that hold of every reachable state and make the
cursor bound inductive: the index is `0` whenever no worker is running
or a stop is pending, and the index never exceeds the active length. -/
def Inv (s : PState) : Prop :=
  (s.thread_running = false → s.index = 0) ∧
  (s.stopped = true → s.index = 0) ∧
  0 ≤ s.index ∧ s.index ≤ ((activeList s).length : Int)

instance (s : PState) : Decidable (IndexInBounds s) := by
  unfold IndexInBounds
  infer_instance

instance (s : PState) : Decidable (Inv s) := by
  unfold Inv
  infer_instance

/-- The one operation/state combination that breaks the strict cursor
bound: removing the currently playing track (`index = rm_index`) when
it sits at the last position of a main playlist of at least two
entries. -/
def removes_current_last (op : Op) (s : PState) : Bool :=
  match op with
  | Op.removeSongCmd f =>
      s.temp_playlist.isEmpty &&
        (match pyIndex s.playlist f with
         | some rm_index =>
             decide (s.index = (rm_index : Int)) &&
             decide (rm_index + 1 = s.playlist.length) &&
             decide (2 ≤ s.playlist.length)
         | none => false)
  | _ => false

/-! ## Helper lemmas -/

theorem activeList_of_temp_nil {s : PState} (h : s.temp_playlist = []) :
    activeList s = s.playlist := by
  simp [activeList, h]

theorem activeList_of_temp_ne_nil {s : PState} (h : s.temp_playlist ≠ []) :
    activeList s = s.temp_playlist := by
  simp [activeList, h]

theorem valid_index_eq (amount : Int) (s : PState) :
    valid_index amount s =
      decide (0 ≤ s.index + amount ∧ s.index + amount < ((activeList s).length : Int)) := by
  unfold valid_index activeList
  split <;> rename_i h <;> simp [h]

theorem pyIndex_lt_length {l : List String} {x : String} {i : Nat}
    (h : pyIndex l x = some i) : i < l.length := by
  induction l generalizing i with
  | nil => simp [pyIndex] at h
  | cons y ys ih =>
    simp only [pyIndex] at h
    split at h
    · simp only [Option.some.injEq] at h
      simp only [List.length_cons]
      omega
    · cases hy : pyIndex ys x with
      | none => simp [hy] at h
      | some j =>
        simp [hy] at h
        subst h
        have := ih hy
        simp
        omega

theorem pyIndex_eq_none_of_not_mem {l : List String} {x : String} (h : x ∉ l) :
    pyIndex l x = none := by
  induction l with
  | nil => rfl
  | cons y ys ih =>
    simp only [List.mem_cons, not_or] at h
    simp [pyIndex, Ne.symm h.1, ih h.2]

theorem pyIndex_get? {l : List String} {x : String} {i : Nat}
    (h : pyIndex l x = some i) : l.get? i = some x := by
  induction l generalizing i with
  | nil => simp [pyIndex] at h
  | cons y ys ih =>
    simp only [pyIndex] at h
    split at h
    · rename_i hy
      simp only [Option.some.injEq] at h
      subst hy
      simp [← h]
    · cases hy : pyIndex ys x with
      | none => simp [hy] at h
      | some j =>
        simp [hy] at h
        subst h
        simpa using ih hy

theorem pyIndex_first {l : List String} {x : String} {i : Nat}
    (h : pyIndex l x = some i) : ∀ j, j < i → l.get? j ≠ some x := by
  induction l generalizing i with
  | nil => simp [pyIndex] at h
  | cons y ys ih =>
    intro j hj
    simp only [pyIndex] at h
    split at h
    · simp only [Option.some.injEq] at h
      omega
    · rename_i hy
      cases hp : pyIndex ys x with
      | none => simp [hp] at h
      | some k =>
        simp [hp] at h
        subst h
        cases j with
        | zero => simpa using hy
        | succ j =>
          simp only [List.get?_cons_succ]
          exact ih hp j (by omega)

theorem preserve_add (args : List String) (s : PState) (h : Inv s) (hb : IndexInBounds s) :
    Inv (add args s) ∧ IndexInBounds (add args s) := by
  obtain ⟨pl, tp, pi, pe, tr, sn, cs, ix, ui, st, pa⟩ := s
  simp only [Inv, IndexInBounds, add, activeList] at *
  obtain ⟨h1, h2, h3, h4⟩ := h
  by_cases ht : tp = []
  · subst ht
    simp only [ne_eq, not_true_eq_false, ite_false, List.length_append] at *
    refine ⟨⟨h1, h2, h3, by push_cast; omega⟩, ?_⟩
    intro hne
    by_cases hp : pl = []
    · subst hp
      have hargs : args ≠ [] := by simpa using hne
      have hal : 0 < args.length := List.length_pos.mpr hargs
      refine ⟨h3, ?_⟩
      simp only [List.length_nil] at h4
      push_cast
      omega
    · obtain ⟨hb1, hb2⟩ := hb hp
      refine ⟨hb1, ?_⟩
      push_cast
      omega
  · simp only [ne_eq, ht, not_false_eq_true, ite_true] at *
    exact ⟨⟨h1, h2, h3, h4⟩, hb⟩

theorem preserve_play (localExists : String → Bool) (args : List String) (s : PState)
    (h : Inv s) (hb : IndexInBounds s) :
    Inv (play localExists args s) ∧ IndexInBounds (play localExists args s) := by
  obtain ⟨pl, tp, pi, pe, tr, sn, cs, ix, ui, st, pa⟩ := s
  obtain ⟨h1, h2, h3, h4⟩ := h
  simp only [Inv, IndexInBounds, activeList] at h1 h2 h3 h4 hb ⊢
  cases tr with
  | true =>
    simp only [play, ite_true, if_pos]
    exact ⟨⟨h1, h2, h3, h4⟩, hb⟩
  | false =>
    have hix : ix = 0 := h1 rfl
    subst hix
    cases pi <;> cases st <;>
      by_cases hargs : args = [] <;>
      by_cases hfil : args.filter localExists = [] <;>
      by_cases hpl : pl = [] <;> by_cases htp : tp = [] <;>
        simp_all [play, Int.natCast_pos, List.length_pos]

theorem preserve_pause (s : PState) (h : Inv s) (hb : IndexInBounds s) :
    Inv (pause_song s) ∧ IndexInBounds (pause_song s) := by
  unfold pause_song
  split
  · exact ⟨h, hb⟩
  · split
    · exact ⟨h, hb⟩
    · obtain ⟨h1, h2, h3, h4⟩ := h
      simp only [Inv, IndexInBounds, activeList] at *
      exact ⟨⟨h1, h2, h3, h4⟩, hb⟩

theorem preserve_resume (s : PState) (h : Inv s) (hb : IndexInBounds s) :
    Inv (resume_song s) ∧ IndexInBounds (resume_song s) := by
  unfold resume_song
  split
  · obtain ⟨h1, h2, h3, h4⟩ := h
    simp only [Inv, IndexInBounds, activeList] at *
    exact ⟨⟨h1, h2, h3, h4⟩, hb⟩
  · exact ⟨h, hb⟩

theorem preserve_stop_command (s : PState) (h : Inv s) (hb : IndexInBounds s) :
    Inv (stop_command s) ∧ IndexInBounds (stop_command s) := by
  obtain ⟨pl, tp, pi, pe, tr, sn, cs, ix, ui, st, pa⟩ := s
  obtain ⟨h1, h2, h3, h4⟩ := h
  simp only [Inv, IndexInBounds, activeList] at h1 h2 h3 h4 hb ⊢
  cases cs with
  | none => simp_all [stop_command]
  | some c =>
    cases pa <;> by_cases hpl : pl = [] <;> by_cases htp : tp = [] <;>
      simp_all [stop_command, stop, join_worker, resume_song,
        Int.natCast_pos, Int.natCast_nonneg, List.length_pos]

theorem preserve_natural_end (s : PState) (h : Inv s) (hb : IndexInBounds s) :
    Inv (natural_end_step s) ∧ IndexInBounds (natural_end_step s) := by
  obtain ⟨pl, tp, pi, pe, tr, sn, cs, ix, ui, st, pa⟩ := s
  obtain ⟨h1, h2, h3, h4⟩ := h
  simp only [Inv, IndexInBounds, activeList] at h1 h2 h3 h4 hb ⊢
  cases tr <;> cases st <;> cases ui <;>
    by_cases htp : tp = [] <;> by_cases hpl : pl = [] <;>
      (try simp_all [natural_end_step, valid_index,
        Int.natCast_pos, Int.natCast_nonneg, List.length_pos]) <;>
      (try split_ifs) <;>
      (try simp_all [Int.natCast_pos, Int.natCast_nonneg, List.length_pos]) <;>
      (try omega)

theorem switch_song_eq {pl tp : List String} {pi pe tr : Bool} {sn : Option String}
    {c : String} {ix : Int} {ui st pa : Bool} {amount : Int}
    (hv : valid_index amount ⟨pl, tp, pi, pe, tr, sn, some c, ix, ui, st, pa⟩ = true)
    (hne : ¬(pl = [] ∧ tp = [])) :
    switch_song amount ⟨pl, tp, pi, pe, tr, sn, some c, ix, ui, st, pa⟩ =
      ⟨pl, tp, true, false, true, none, none, ix + amount, true, false, false⟩ := by
  cases pa <;> cases pi <;>
    simp [switch_song, hv, stop, join_worker, resume_song, play, hne]

theorem preserve_switch (amount : Int) (s : PState) (h : Inv s) (hb : IndexInBounds s) :
    Inv (switch_song amount s) ∧ IndexInBounds (switch_song amount s) := by
  obtain ⟨pl, tp, pi, pe, tr, sn, cs, ix, ui, st, pa⟩ := s
  obtain ⟨h1, h2, h3, h4⟩ := h
  cases cs with
  | none =>
    simp only [switch_song, ite_true, if_pos]
    exact ⟨⟨h1, h2, h3, h4⟩, hb⟩
  | some c =>
    by_cases hv : valid_index amount ⟨pl, tp, pi, pe, tr, sn, some c, ix, ui, st, pa⟩ = true
    · have hvv : 0 ≤ ix + amount ∧
          ix + amount <
            ((activeList ⟨pl, tp, pi, pe, tr, sn, some c, ix, ui, st, pa⟩).length : Int) := by
        have hq := (valid_index_eq amount ⟨pl, tp, pi, pe, tr, sn, some c, ix, ui, st, pa⟩).symm.trans hv
        exact of_decide_eq_true hq
      have hne : ¬(pl = [] ∧ tp = []) := by
        rintro ⟨rfl, rfl⟩
        simp [activeList] at hvv
        omega
      rw [switch_song_eq hv hne]
      simp only [Inv, IndexInBounds, activeList] at hvv ⊢
      by_cases htp : tp = [] <;>
        simp only [htp, ne_eq, not_true_eq_false, not_false_eq_true, ite_true,
          ite_false] at hvv ⊢ <;>
        exact ⟨⟨by simp, by simp, by omega, by omega⟩, fun hne => ⟨by omega, by omega⟩⟩
    · have he : switch_song amount ⟨pl, tp, pi, pe, tr, sn, some c, ix, ui, st, pa⟩ =
          ⟨pl, tp, pi, pe, tr, sn, some c, ix, ui, st, pa⟩ := by
        simp [switch_song, hv]
      rw [he]
      exact ⟨⟨h1, h2, h3, h4⟩, hb⟩

theorem remove_song_eq_of_gt {pl tp : List String} {pi pe tr : Bool} {sn cs : Option String}
    {ix : Int} {ui st pa : Bool} {f : String} {rm : Nat}
    (hpy : pyIndex pl f = some rm) (hgt : (rm : Int) < ix) :
    remove_song f ⟨pl, tp, pi, pe, tr, sn, cs, ix, ui, st, pa⟩ =
      ⟨pl.eraseIdx rm, tp, pi, pe, tr, sn, cs, ix - 1, ui, st, pa⟩ := by
  simp [remove_song, hpy, fix_index, hgt]

theorem remove_song_eq_of_eq {pl tp : List String} {pi pe tr : Bool} {sn cs : Option String}
    {ix : Int} {ui st pa : Bool} {f : String} {rm : Nat}
    (hpy : pyIndex pl f = some rm) (heq : ix = (rm : Int)) :
    remove_song f ⟨pl, tp, pi, pe, tr, sn, cs, ix, ui, st, pa⟩ =
      ⟨pl.eraseIdx rm, tp, pi, pe, tr, sn, cs, ix, false, st, pa⟩ := by
  subst heq
  simp [remove_song, hpy, fix_index]

theorem remove_song_eq_of_lt {pl tp : List String} {pi pe tr : Bool} {sn cs : Option String}
    {ix : Int} {ui st pa : Bool} {f : String} {rm : Nat}
    (hpy : pyIndex pl f = some rm) (hlt : ix < (rm : Int)) :
    remove_song f ⟨pl, tp, pi, pe, tr, sn, cs, ix, ui, st, pa⟩ =
      ⟨pl.eraseIdx rm, tp, pi, pe, tr, sn, cs, ix, ui, st, pa⟩ := by
  have hc1 : ¬ ix > (rm : Int) := by omega
  have hc2 : ¬ ix = (rm : Int) := by omega
  simp [remove_song, hpy, fix_index, hc1, hc2]

theorem preserve_remove_song (f : String) (s : PState) (h : Inv s) (hb : IndexInBounds s)
    (hex : removes_current_last (Op.removeSongCmd f) s = false) :
    Inv (remove_song f s) ∧ IndexInBounds (remove_song f s) := by
  obtain ⟨pl, tp, pi, pe, tr, sn, cs, ix, ui, st, pa⟩ := s
  obtain ⟨h1, h2, h3, h4⟩ := h
  cases hpy : pyIndex pl f with
  | none =>
    simp only [remove_song, hpy]
    exact ⟨⟨h1, h2, h3, h4⟩, hb⟩
  | some rm =>
    have hrm : rm < pl.length := pyIndex_lt_length hpy
    have hlen : (pl.eraseIdx rm).length + 1 = pl.length := List.length_eraseIdx_add_one hrm
    have hpl : pl ≠ [] := by
      intro hc
      subst hc
      simp at hrm
    have hexP : ¬(tp = [] ∧ ix = (rm : Int) ∧ rm + 1 = pl.length ∧ 2 ≤ pl.length) := by
      rintro ⟨a, b, c, d⟩
      subst a
      simp [removes_current_last, hpy, b, c, d] at hex
    clear hex
    simp only [Inv, IndexInBounds, activeList] at h1 h2 h3 h4 hb ⊢
    rcases lt_trichotomy ix (rm : Int) with hlt | heq | hgt
    · -- removal strictly after the cursor: cursor untouched
      rw [remove_song_eq_of_lt hpy hlt]
      by_cases htp : tp = [] <;>
        simp only [htp, ne_eq, not_true_eq_false, not_false_eq_true, ite_true, ite_false]
          at h4 hb ⊢
      · constructor
        · exact ⟨h1, h2, h3, by omega⟩
        · intro hne
          exact ⟨h3, by omega⟩
      · exact ⟨⟨h1, h2, h3, h4⟩, hb⟩
    · -- removal of the currently playing song: cursor unchanged, flag cleared
      rw [remove_song_eq_of_eq hpy heq]
      by_cases htp : tp = [] <;>
        simp only [htp, ne_eq, not_true_eq_false, not_false_eq_true, ite_true, ite_false]
          at h4 hb ⊢
      · have hc : ¬(rm + 1 = pl.length ∧ 2 ≤ pl.length) := fun hcd =>
          hexP ⟨htp, heq, hcd.1, hcd.2⟩
        constructor
        · exact ⟨h1, h2, h3, by omega⟩
        · intro hne
          have hpos : 0 < (pl.eraseIdx rm).length := List.length_pos.mpr hne
          exact ⟨h3, by omega⟩
      · exact ⟨⟨h1, h2, h3, by omega⟩, hb⟩
    · -- removal strictly before the cursor: cursor shifts down by one
      rw [remove_song_eq_of_gt hpy hgt]
      by_cases htp : tp = [] <;>
        simp only [htp, ne_eq, not_true_eq_false, not_false_eq_true, ite_true, ite_false]
          at h4 hb ⊢
      · have hbb := hb hpl
        constructor
        · refine ⟨?_, ?_, by omega, by omega⟩
          · intro hc
            have := h1 hc
            omega
          · intro hc
            have := h2 hc
            omega
        · intro hne
          exact ⟨by omega, by omega⟩
      · constructor
        · refine ⟨?_, ?_, by omega, by omega⟩
          · intro hc
            have := h1 hc
            omega
          · intro hc
            have := h2 hc
            omega
        · intro hne
          have hbb := hb hne
          exact ⟨by omega, by omega⟩

theorem preserve_song_start (s : PState) (h : Inv s) (hb : IndexInBounds s) :
    Inv (song_start s) ∧ IndexInBounds (song_start s) := by
  unfold song_start
  split
  · exact ⟨h, hb⟩
  · obtain ⟨h1, h2, h3, h4⟩ := h
    simp only [Inv, IndexInBounds, activeList] at *
    exact ⟨⟨h1, h2, h3, h4⟩, hb⟩

/-! ## Claim C1 -/

/-- C1, counterexample: from a state satisfying the cursor bound
(main playlist `["a.wav", "b.wav"]`, cursor at the last position),
`Remove` of the track at the current index leaves `index = 1` while the
remaining active sequence has length `1`, so the claimed bound
`0 <= index < len(active sequence)` is violated. -/
theorem c1_remove_current_last_counterexample :
    IndexInBounds ⟨["a.wav", "b.wav"], [], true, false, true, some "b.wav", some "b.wav",
      1, true, false, false⟩ ∧
    ¬ IndexInBounds (applyOp (Op.removeSongCmd "b.wav")
      ⟨["a.wav", "b.wav"], [], true, false, true, some "b.wav", some "b.wav",
        1, true, false, false⟩) := by
  decide

/-- C1 (amended): in any state satisfying the cursor bound together
with the auxiliary reachable-state facts `Inv` (index is `0` whenever
no worker runs or a stop is pending, and never exceeds the active
length), every operation preserves both — except `Remove` of the track
at the current index when that track is the last of a main playlist of
at least two entries (`removes_current_last`), which is exactly the
case the counterexample exhibits. -/
theorem c1_operations_preserve_cursor_bound (s : PState) (op : Op) (h : Inv s)
    (hb : IndexInBounds s) (hex : removes_current_last op s = false) :
    Inv (applyOp op s) ∧ IndexInBounds (applyOp op s) := by
  cases op with
  | addCmd args => exact preserve_add args s h hb
  | playCmd localExists args => exact preserve_play localExists args s h hb
  | stopCmd => exact preserve_stop_command s h hb
  | pauseCmd => exact preserve_pause s h hb
  | resumeCmd => exact preserve_resume s h hb
  | switchCmd amount => exact preserve_switch amount s h hb
  | removeSongCmd f => exact preserve_remove_song f s h hb hex
  | naturalEnd => exact preserve_natural_end s h hb
  | songStart => exact preserve_song_start s h hb

/-- C1 (amended), witness: removing a track behind the cursor from a
playing two-track state keeps the cursor bound. -/
theorem c1_operations_preserve_cursor_bound_witness :
    Inv (applyOp (Op.removeSongCmd "b.wav")
      ⟨["a.wav", "b.wav"], [], true, false, true, some "a.wav", some "a.wav",
        0, true, false, false⟩) ∧
    IndexInBounds (applyOp (Op.removeSongCmd "b.wav")
      ⟨["a.wav", "b.wav"], [], true, false, true, some "a.wav", some "a.wav",
        0, true, false, false⟩) :=
  c1_operations_preserve_cursor_bound
    ⟨["a.wav", "b.wav"], [], true, false, true, some "a.wav", some "a.wav",
      0, true, false, false⟩
    (Op.removeSongCmd "b.wav") (by decide) (by decide) (by decide)

/-! ## Claim C2 -/

theorem get?_eraseIdx_of_le {α : Type} (l : List α) (i j : Nat) (hij : i ≤ j) :
    (l.eraseIdx i).get? j = l.get? (j + 1) := by
  induction l generalizing i j with
  | nil => simp
  | cons a l ih =>
    cases i with
    | zero => simp [List.eraseIdx]
    | succ i =>
      cases j with
      | zero => omega
      | succ j =>
        simp only [List.eraseIdx, List.get?_cons_succ]
        exact ih i j (by omega)

/-- C2: removing the currently playing track (first occurrence at the
cursor position `i`) clears `update_index`; the next natural-end step
then leaves the cursor unchanged instead of advancing it, and the song
loaded next is exactly the old track at position `i + 1` — the one
that shifted into the removed slot — so no track is skipped. -/
theorem c2_remove_current_clears_advance (s : PState) (t : String) (i : Nat)
    (htp : s.temp_playlist = [])
    (hpy : pyIndex s.playlist t = some i)
    (hcur : s.index = (i : Int))
    (hrun : s.thread_running = true)
    (hstop : s.stopped = false)
    (hend : s.playlist_end = false) :
    (remove_song t s).update_index = false ∧
    (natural_end_step (remove_song t s)).index = s.index ∧
    (song_start (natural_end_step (remove_song t s))).current_song =
      s.playlist.get? (i + 1) := by
  obtain ⟨pl, tp, pi, pe, tr, sn, cs, ix, ui, st, pa⟩ := s
  simp only at htp hpy hcur hrun hstop hend
  subst htp hcur hrun hstop hend
  rw [remove_song_eq_of_eq hpy rfl]
  refine ⟨rfl, ?_, ?_⟩
  · simp [natural_end_step]
  · simp [natural_end_step, song_start, activeList]
    have h := get?_eraseIdx_of_le pl i i le_rfl
    simpa using h

/-- C2, witness: in playlist `["a.wav", "b.wav", "c.wav"]` with the
cursor on `"b.wav"`, removing `"b.wav"` clears the flag, the cursor
stays at `1`, and `"c.wav"` is loaded next. -/
theorem c2_remove_current_clears_advance_witness :
    (remove_song "b.wav"
      ⟨["a.wav", "b.wav", "c.wav"], [], true, false, true, some "b.wav", some "b.wav",
        1, true, false, false⟩).update_index = false ∧
    (natural_end_step (remove_song "b.wav"
      ⟨["a.wav", "b.wav", "c.wav"], [], true, false, true, some "b.wav", some "b.wav",
        1, true, false, false⟩)).index =
      (⟨["a.wav", "b.wav", "c.wav"], [], true, false, true, some "b.wav", some "b.wav",
        1, true, false, false⟩ : PState).index ∧
    (song_start (natural_end_step (remove_song "b.wav"
      ⟨["a.wav", "b.wav", "c.wav"], [], true, false, true, some "b.wav", some "b.wav",
        1, true, false, false⟩))).current_song =
      (["a.wav", "b.wav", "c.wav"] : List String).get? 2 :=
  c2_remove_current_clears_advance
    ⟨["a.wav", "b.wav", "c.wav"], [], true, false, true, some "b.wav", some "b.wav",
      1, true, false, false⟩
    "b.wav" 1 rfl (by decide) rfl rfl rfl rfl

/-! ## Claim C3 -/

/-- C3: the failure handler of `play_song` does not remove the failing
track on `wave.Error` or `EOFError`: it calls `remove(filename)` with
the bare string, which iterates the characters `"x", ".", "w", "a",
"v"` — none of which is in the playlist — so `"x.wav"` stays.  The
`FileNotFoundError` branch, which calls `remove_song` directly, does
remove it, exhibiting the intended behaviour. -/
theorem c3_wave_error_track_not_removed :
    (play_song_onError PlayFailure.waveError "x.wav"
      ⟨["x.wav"], [], true, false, true, some "x.wav", some "x.wav",
        0, true, false, false⟩).playlist = ["x.wav"] ∧
    (play_song_onError PlayFailure.eofError "x.wav"
      ⟨["x.wav"], [], true, false, true, some "x.wav", some "x.wav",
        0, true, false, false⟩).playlist = ["x.wav"] ∧
    (play_song_onError PlayFailure.fileNotFound "x.wav"
      ⟨["x.wav"], [], true, false, true, some "x.wav", some "x.wav",
        0, true, false, false⟩).playlist = [] := by
  decide

/-! ## Claim C4 -/

/-- C4: `Remove` of an absent track leaves the whole state (playlist
and index included) unchanged; `Remove` of a present track removes
exactly its first occurrence (position `i`: the track is at `i` and at
no earlier position), and the cursor is decremented if and only if the
removed position is strictly before the cursor, being unchanged
otherwise. -/
theorem c4_remove_first_occurrence (s : PState) (t : String) :
    (t ∉ s.playlist → remove_song t s = s) ∧
    (∀ i : Nat, pyIndex s.playlist t = some i →
      s.playlist.get? i = some t ∧
      (∀ j : Nat, j < i → s.playlist.get? j ≠ some t) ∧
      (remove_song t s).playlist = s.playlist.eraseIdx i ∧
      (remove_song t s).index = (if (i : Int) < s.index then s.index - 1 else s.index) ∧
      ((remove_song t s).index = s.index - 1 ↔ (i : Int) < s.index)) := by
  constructor
  · intro hmem
    simp [remove_song, pyIndex_eq_none_of_not_mem hmem]
  · intro i hpy
    refine ⟨pyIndex_get? hpy, fun j hj => pyIndex_first hpy j hj, ?_⟩
    obtain ⟨pl, tp, pi, pe, tr, sn, cs, ix, ui, st, pa⟩ := s
    simp only at hpy
    rcases lt_trichotomy ix (i : Int) with hlt | heq | hgt
    · rw [remove_song_eq_of_lt hpy hlt]
      refine ⟨rfl, ?_, ?_⟩
      · dsimp only
        rw [if_neg (by omega)]
      · dsimp only
        omega
    · rw [remove_song_eq_of_eq hpy heq]
      refine ⟨rfl, ?_, ?_⟩
      · dsimp only
        rw [if_neg (by omega)]
      · dsimp only
        omega
    · rw [remove_song_eq_of_gt hpy hgt]
      refine ⟨rfl, ?_, ?_⟩
      · dsimp only
        rw [if_pos (by omega)]
      · dsimp only
        omega

/-- C4, witness: removing the absent `"z.wav"` is a no-op, and
removing `"a.wav"` from `["a.wav", "b.wav", "a.wav"]` with the cursor
at `2` removes position `0` and decrements the cursor. -/
theorem c4_remove_first_occurrence_witness :
    remove_song "z.wav"
      ⟨["a.wav", "b.wav", "a.wav"], [], false, false, false, none, none,
        2, true, false, false⟩ =
      ⟨["a.wav", "b.wav", "a.wav"], [], false, false, false, none, none,
        2, true, false, false⟩ ∧
    (remove_song "a.wav"
      ⟨["a.wav", "b.wav", "a.wav"], [], false, false, false, none, none,
        2, true, false, false⟩).playlist = ["b.wav", "a.wav"] ∧
    (remove_song "a.wav"
      ⟨["a.wav", "b.wav", "a.wav"], [], false, false, false, none, none,
        2, true, false, false⟩).index = 1 := by
  have h0 := c4_remove_first_occurrence
    ⟨["a.wav", "b.wav", "a.wav"], [], false, false, false, none, none,
      2, true, false, false⟩ "z.wav"
  have h1 := c4_remove_first_occurrence
    ⟨["a.wav", "b.wav", "a.wav"], [], false, false, false, none, none,
      2, true, false, false⟩ "a.wav"
  obtain ⟨-, -, hpl, hix, -⟩ := h1.2 0 (by decide)
  exact ⟨h0.1 (by decide), by simpa using hpl, by simpa using hix⟩

/-! ## Claim C5 -/

/-- C5: with an active session, `Next`/`Prev` whose candidate index
`index + amount` falls outside the active sequence is a complete
no-op: the returned state equals the input state (index, both
playlists, and all session flags unchanged; no wraparound). -/
theorem c5_switch_out_of_bounds_noop (s : PState) (amount : Int)
    (hsess : s.current_song ≠ none)
    (hoob : s.index + amount < 0 ∨ ((activeList s).length : Int) ≤ s.index + amount) :
    switch_song amount s = s := by
  have hv : valid_index amount s = false := by
    rw [valid_index_eq]
    simp only [decide_eq_false_iff_not]
    omega
  simp [switch_song, hsess, hv]

/-- C5, witness: `Next` at the last position of a one-track playlist
changes nothing. -/
theorem c5_switch_out_of_bounds_noop_witness :
    switch_song 1
      ⟨["a.wav"], [], true, false, true, some "a.wav", some "a.wav",
        0, true, false, false⟩ =
      ⟨["a.wav"], [], true, false, true, some "a.wav", some "a.wav",
        0, true, false, false⟩ :=
  c5_switch_out_of_bounds_noop
    ⟨["a.wav"], [], true, false, true, some "a.wav", some "a.wav",
      0, true, false, false⟩ 1 (by decide) (by decide)

/-! ## Claim C6 -/

/-- C6: `play` aborts with the state completely unchanged — hence no
worker spawned and `Idle` preserved — both when a non-empty request
filters down to an empty overlay (no requested track is locally
present) and when the request is empty while both playlists are
empty. -/
theorem c6_play_abort_no_state_change (localExists : String → Bool) (args : List String)
    (s : PState) (htp : s.temp_playlist = []) :
    (args ≠ [] → args.filter localExists = [] → play localExists args s = s) ∧
    (args = [] → s.playlist = [] → play localExists args s = s) := by
  obtain ⟨pl, tp, pi, pe, tr, sn, cs, ix, ui, st, pa⟩ := s
  simp only at htp
  subst htp
  constructor
  · intro hargs hfil
    cases tr <;> simp [play, hargs, hfil]
  · intro hargs hpl
    subst hargs
    simp only at hpl
    subst hpl
    cases tr <;> simp [play]

/-- C6, witness: `play` of one locally absent track from an idle
one-track state, and `play` of nothing from the fresh empty state,
both change nothing. -/
theorem c6_play_abort_no_state_change_witness :
    play (fun _ => false) ["x.wav"]
      ⟨["a.wav"], [], false, false, false, none, none, 0, true, false, false⟩ =
      ⟨["a.wav"], [], false, false, false, none, none, 0, true, false, false⟩ ∧
    play (fun _ => false) [] initState = initState :=
  ⟨(c6_play_abort_no_state_change (fun _ => false) ["x.wav"]
      ⟨["a.wav"], [], false, false, false, none, none, 0, true, false, false⟩ rfl).1
      (by decide) rfl,
   (c6_play_abort_no_state_change (fun _ => false) [] initState rfl).2 rfl rfl⟩

/-! ## Claims C7 and C8: the download protocol -/

theorem lookup_writeAppend_self (fs : Files) (f : String) (d : Chunk) :
    (writeAppend fs f d).lookup f = some ((fs.lookup f).getD [] ++ d) := by
  induction fs with
  | nil => simp [writeAppend, List.lookup]
  | cons p rest ih =>
    obtain ⟨g, c⟩ := p
    by_cases hg : g = f
    · subst hg
      simp [writeAppend, List.lookup]
    · have hfg : (f == g) = false := by
        simp [Ne.symm hg]
      simp [writeAppend, hg, List.lookup, hfg, ih]

theorem lookup_writeAppend_ne (fs : Files) {f g : String} (hg : g ≠ f) (d : Chunk) :
    (writeAppend fs f d).lookup g = fs.lookup g := by
  have hgf : (g == f) = false := by
    simp [hg]
  induction fs with
  | nil => simp [writeAppend, List.lookup, hgf]
  | cons p rest ih =>
    obtain ⟨k, c⟩ := p
    by_cases hk : k = f
    · subst hk
      simp [writeAppend, List.lookup, hgf, ih]
    · simp [writeAppend, hk, List.lookup, ih]

theorem down_loop_spec (f : String) (cs : List Chunk) (hne : ∀ c ∈ cs, c ≠ []) :
    ∀ (fs : Files) (b : Chunk), fs.lookup f = some b →
      ((down_loop fs f cs).1).lookup f = some (b ++ cs.flatten) ∧
      (down_loop fs f cs).2 = (cs.flatMap fun c => [Event.recv c, Event.ack]) ++ [Event.recv []] := by
  induction cs with
  | nil =>
    intro fs b hb
    simp [down_loop, hb]
  | cons c rest ih =>
    intro fs b hb
    have hc : c ≠ [] := hne c (by simp)
    have hrest : ∀ d ∈ rest, d ≠ [] := fun d hd => hne d (by simp [hd])
    have hb2 : (writeAppend fs f c).lookup f = some (b ++ c) := by
      rw [lookup_writeAppend_self, hb]
      rfl
    obtain ⟨ih1, ih2⟩ := ih hrest (writeAppend fs f c) (b ++ c) hb2
    simp only [down_loop, hc, ite_false, if_neg]
    refine ⟨?_, ?_⟩
    · rw [ih1]
      simp
    · rw [ih2]
      simp

theorem lookup_down_loop_ne (f : String) {g : String} (hg : g ≠ f) (cs : List Chunk) :
    ∀ fs : Files, ((down_loop fs f cs).1).lookup g = fs.lookup g := by
  induction cs with
  | nil =>
    intro fs
    simp [down_loop]
  | cons c rest ih =>
    intro fs
    by_cases hc : c = []
    · simp [down_loop, hc]
    · simp only [down_loop, hc, ite_false, if_neg]
      rw [ih (writeAppend fs f c), lookup_writeAppend_ne fs hg]

/-- C8: downloading a locally absent track whose remote stream is the
non-empty chunks `cs` (followed by the empty end-of-stream chunk)
succeeds, creates a local file whose bytes are exactly the chunks
concatenated in order, and produces the strict lock-step wire trace in
which every received chunk is acknowledged before the next one is
consumed. -/
theorem c8_download_writes_concatenation (remote : String → List Chunk) (fs : Files)
    (f : String) (cs : List Chunk)
    (habs : fileExists fs f = false)
    (hrem : remote f = cs)
    (hne : ∀ c ∈ cs, c ≠ []) (hcs : cs ≠ []) :
    ((download_one remote fs f).1).lookup f = some cs.flatten ∧
    (download_one remote fs f).2.1 = true ∧
    (download_one remote fs f).2.2 =
      Event.req f :: ((cs.flatMap fun c => [Event.recv c, Event.ack]) ++ [Event.recv []]) := by
  cases cs with
  | nil => exact absurd rfl hcs
  | cons c rest =>
    have hc : c ≠ [] := hne c (by simp)
    have hrest : ∀ d ∈ rest, d ≠ [] := fun d hd => hne d (by simp [hd])
    have hnone : fs.lookup f = none := by
      cases hq : List.lookup f fs with
      | none => rfl
      | some v =>
        rw [fileExists, hq] at habs
        simp at habs
    have hb : (writeAppend fs f c).lookup f = some c := by
      rw [lookup_writeAppend_self, hnone]
      rfl
    obtain ⟨h1, h2⟩ := down_loop_spec f rest hrest (writeAppend fs f c) c hb
    simp only [download_one, habs, Bool.false_eq_true, if_false, ite_false, hrem,
      List.headD_cons, hc, List.drop_succ_cons, List.drop_zero]
    refine ⟨?_, by trivial, ?_⟩
    · rw [h1]
      simp
    · rw [h2]
      simp

/-- C8, witness: two chunks `[1, 2]` and `[3]` produce the file
`[1, 2, 3]` and the lock-step trace. -/
theorem c8_download_writes_concatenation_witness :
    ((download_one (fun _ => [[1, 2], [3]]) [] "a.wav").1).lookup "a.wav" =
      some ([[1, 2], [3]] : List Chunk).flatten ∧
    (download_one (fun _ => [[1, 2], [3]]) [] "a.wav").2.1 = true ∧
    (download_one (fun _ => [[1, 2], [3]]) [] "a.wav").2.2 =
      Event.req "a.wav" ::
        ((([[1, 2], [3]] : List Chunk).flatMap fun c => [Event.recv c, Event.ack]) ++
          [Event.recv []]) :=
  c8_download_writes_concatenation (fun _ => [[1, 2], [3]]) [] "a.wav" [[1, 2], [3]]
    (by decide) rfl (by decide) (by decide)

theorem download_foldl_spec (remote : String → List Chunk) (fs0 : Files) :
    ∀ (args : List String) (fs : Files) (acc : List String),
      (∀ g : String, (remote g).headD [] = [] → fileExists fs g = fileExists fs0 g) →
      (∀ g : String, (remote g).headD [] = [] →
        fileExists (args.foldl (download_step remote) (fs, acc)).1 g = fileExists fs0 g) ∧
      (args.foldl (download_step remote) (fs, acc)).2
        = acc ++ args.filter
            (fun g => fileExists fs0 g || decide ((remote g).headD [] ≠ [])) := by
  intro args
  induction args with
  | nil =>
    intro fs acc hinv
    exact ⟨fun g hg => hinv g hg, by simp⟩
  | cons a args ih =>
    intro fs acc hinv
    by_cases hex : fileExists fs a = true
    · have hstep : download_step remote (fs, acc) a = (fs, acc ++ [a]) := by
        simp [download_step, download_one, hex]
      have hPa : (fileExists fs0 a || decide ((remote a).headD [] ≠ [])) = true := by
        by_cases hga : (remote a).headD [] = []
        · rw [← hinv a hga, hex, Bool.true_or]
        · rw [Bool.or_eq_true]
          exact Or.inr (decide_eq_true hga)
      obtain ⟨ih1, ih2⟩ := ih fs (acc ++ [a]) hinv
      simp only [List.foldl_cons, hstep]
      refine ⟨ih1, ?_⟩
      rw [ih2, List.filter_cons, hPa]
      simp
    · have hex2 : fileExists fs a = false := by
        simpa using hex
      by_cases hfirst : (remote a).headD [] = []
      · have hfirst2 : (remote a).head?.getD [] = [] := by
          simpa [List.headD_eq_head?_getD] using hfirst
        have hstep : download_step remote (fs, acc) a = (fs, acc) := by
          simp [download_step, download_one, hex2, hfirst2]
        have hPa : (fileExists fs0 a || decide ((remote a).headD [] ≠ [])) = false := by
          rw [← hinv a hfirst, hex2, Bool.false_or, decide_eq_false_iff_not]
          intro hc
          exact hc hfirst
        obtain ⟨ih1, ih2⟩ := ih fs acc hinv
        simp only [List.foldl_cons, hstep]
        refine ⟨ih1, ?_⟩
        rw [ih2, List.filter_cons, hPa]
        simp
      · have hfirst2 : ¬ (remote a).head?.getD [] = [] := by
          simpa [List.headD_eq_head?_getD] using hfirst
        have h21 : (download_one remote fs a).2.1 = true := by
          simp [download_one, hex2, hfirst2]
        have hfs1 : ∀ g : String, (remote g).headD [] = [] →
            fileExists (download_one remote fs a).1 g = fileExists fs0 g := by
          intro g hg
          have hga : g ≠ a := by
            intro hc
            subst hc
            exact hfirst hg
          have hl : ((download_one remote fs a).1).lookup g = fs.lookup g := by
            simp only [download_one, hex2, Bool.false_eq_true, if_false, ite_false,
              hfirst, List.headD_eq_head?_getD, hfirst2]
            rw [lookup_down_loop_ne a hga, lookup_writeAppend_ne fs hga]
          rw [fileExists, hl]
          exact hinv g hg
        have hPa : (fileExists fs0 a || decide ((remote a).headD [] ≠ [])) = true := by
          rw [Bool.or_eq_true]
          exact Or.inr (decide_eq_true hfirst)
        have hstep : download_step remote (fs, acc) a =
            ((download_one remote fs a).1, acc ++ [a]) := by
          simp only [download_step, h21, ite_true, if_pos]
        obtain ⟨ih1, ih2⟩ := ih (download_one remote fs a).1 (acc ++ [a]) hfs1
        simp only [List.foldl_cons, hstep]
        refine ⟨ih1, ?_⟩
        rw [ih2, List.filter_cons, hPa]
        simp

/-- C7: a requested track that is locally absent and whose first reply
chunk is empty yields no local file (it does not exist in the final
store either) and is not accepted; the whole batch is still processed,
and the accepted list is exactly the requested tracks that were local
already or whose first chunk was non-empty, in order. -/
theorem c7_empty_first_chunk_fails (remote : String → List Chunk) (fs : Files)
    (args : List String) (f : String)
    (habs : fileExists fs f = false)
    (hempty : (remote f).headD [] = []) :
    fileExists (download remote fs args).1 f = false ∧
    f ∉ (download remote fs args).2 ∧
    (download remote fs args).2 =
      args.filter (fun g => fileExists fs g || decide ((remote g).headD [] ≠ [])) := by
  obtain ⟨h1, h2⟩ := download_foldl_spec remote fs args fs [] (fun g _ => rfl)
  have hfst : fileExists (download remote fs args).1 f = false := by
    rw [download, h1 f hempty]
    exact habs
  have hacc : (download remote fs args).2 =
      args.filter (fun g => fileExists fs g || decide ((remote g).headD [] ≠ [])) := by
    rw [download, h2]
    simp
  refine ⟨hfst, ?_, hacc⟩
  intro hmem
  rw [hacc, List.mem_filter, habs, Bool.false_or, decide_eq_true_eq] at hmem
  exact hmem.2 hempty

/-- C7, witness: requesting `["a.wav", "x.wav", "a.wav"]` where
`"x.wav"` is unavailable (empty first chunk) accepts exactly the two
`"a.wav"` requests and creates no `"x.wav"` file. -/
theorem c7_empty_first_chunk_fails_witness :
    fileExists (download (fun g => if g = "a.wav" then [[1], [2]] else []) []
      ["a.wav", "x.wav", "a.wav"]).1 "x.wav" = false ∧
    "x.wav" ∉ (download (fun g => if g = "a.wav" then [[1], [2]] else []) []
      ["a.wav", "x.wav", "a.wav"]).2 ∧
    (download (fun g => if g = "a.wav" then [[1], [2]] else []) []
      ["a.wav", "x.wav", "a.wav"]).2 =
      (["a.wav", "x.wav", "a.wav"] : List String).filter
        (fun g => fileExists [] g ||
          decide (((fun g => if g = "a.wav" then [[1], [2]] else ([] : List Chunk)) g).headD []
            ≠ [])) :=
  c7_empty_first_chunk_fails (fun g => if g = "a.wav" then [[1], [2]] else [])
    [] ["a.wav", "x.wav", "a.wav"] "x.wav" (by decide) (by decide)

/-! ## Claims C9 and C10 -/

theorem add_foldl (bs : List (List String)) :
    ∀ s : PState,
      bs.foldl (fun s args => add args s) s =
        { s with playlist := s.playlist ++ bs.flatten } := by
  induction bs with
  | nil =>
    intro s
    simp
  | cons b bs ih =>
    intro s
    rw [List.foldl_cons, ih (add b s)]
    simp [add, List.append_assoc]

/-- C9: processing any sequence of `Add` batches from the initial
state yields a main playlist equal to the concatenation of the batches
in arrival order (duplicates preserved), with every other state
component untouched. -/
theorem c9_add_batches_concatenate (batches : List (List String)) :
    batches.foldl (fun s args => add args s) initState =
      { initState with playlist := batches.flatten } := by
  rw [add_foldl]
  simp [initState]

/-- C10: at startup, `main()` seeds a fresh player with the full
listing of the songs directory (created empty when absent), before
either thread starts; every other component keeps its initial value. -/
theorem c10_startup_queues_local_songs (songsDir : Option (List String)) :
    main_startup songsDir = { initState with playlist := mkdir_exist_ok songsDir } ∧
    (main_startup none).playlist = [] ∧
    ∀ listing : List String, (main_startup (some listing)).playlist = listing := by
  refine ⟨?_, rfl, fun listing => rfl⟩
  simp [main_startup, add, initState]

end MusicClient
